import Mathlib

/-!
Verification of the DFA tokenizer of `tokpar.py`.

The tokenizer is a three-state deterministic automaton (`START`, `WORD`,
`NUMBER`) scanning a string character by character, accumulating a buffer,
emitting classified tokens, and finally lower-casing the text of every
`WORD` token.  We embed it shallowly: the mutable instance fields
(`state`, `current`, `tokens`) become a state record `St`, the loop body
becomes a pure transition function `step`, and `tokenize` is a fold over
the input characters followed by the end-of-input flush and the
normalization pass, exactly as in the source.
-/

namespace TokPar

/-- Token kinds: the `type` strings `"WORD"`, `"NUMBER"`, `"SYMBOL"` of `Tok`. -/
inductive Kind where
  | WORD
  | NUMBER
  | SYMBOL
deriving DecidableEq

/-- The `Tok` dataclass: a kind and the token text (modelled as `List Char`). -/
structure Tok where
  type : Kind
  value : List Char
deriving DecidableEq

/-- The automaton state strings `"START"`, `"WORD"`, `"NUMBER"` of `self.state`. -/
inductive Mode where
  | START
  | WORD
  | NUMBER
deriving DecidableEq

/-- The mutable fields of a `DFATokenizer` instance:
`self.state`, `self.current`, `self.tokens`. -/
structure St where
  state : Mode
  current : List Char
  tokens : List Tok
deriving DecidableEq

/-- `DFATokenizer.__init__` / the state after `reset`. -/
def initSt : St := ⟨Mode.START, [], []⟩

/-- `DFATokenizer.reset`: sets `state` to `"START"`, clears `current` and
`tokens`; the prior instance state is discarded entirely. -/
def reset (_ : St) : St := initSt

/-- `DFATokenizer.emit`: if `self.current` is non-empty, append
`Tok(type_, self.current)` to `self.tokens` and clear `current`. -/
def emit (st : St) (k : Kind) : St :=
  if st.current = [] then st
  else { st with tokens := st.tokens ++ [⟨k, st.current⟩], current := [] }

/-- One iteration of the `for ch in text` loop body of
`DFATokenizer.tokenize`, covering the three `self.state` cases including
the inline reprocessing branches. -/
def step (st : St) (ch : Char) : St :=
  match st.state with
  | Mode.START =>
    if ch.isWhitespace then st
    else if ch.isAlpha then { st with state := Mode.WORD, current := st.current ++ [ch] }
    else if ch.isDigit then { st with state := Mode.NUMBER, current := st.current ++ [ch] }
    else { st with tokens := st.tokens ++ [⟨Kind.SYMBOL, [ch]⟩] }
  | Mode.WORD =>
    if ch.isAlpha || ch = '\'' then { st with current := st.current ++ [ch] }
    else
      let s1 : St := { emit st Kind.WORD with state := Mode.START }
      if ch.isWhitespace then s1
      else if ch.isDigit then { s1 with state := Mode.NUMBER, current := s1.current ++ [ch] }
      else { s1 with tokens := s1.tokens ++ [⟨Kind.SYMBOL, [ch]⟩] }
  | Mode.NUMBER =>
    if ch.isDigit then { st with current := st.current ++ [ch] }
    else
      let s1 : St := { emit st Kind.NUMBER with state := Mode.START }
      if ch.isWhitespace then s1
      else if ch.isAlpha then { s1 with state := Mode.WORD, current := s1.current ++ [ch] }
      else { s1 with tokens := s1.tokens ++ [⟨Kind.SYMBOL, [ch]⟩] }

/-- Run the scanning loop over a character list starting from a given state. -/
def scanFrom (st : St) (l : List Char) : St := l.foldl step st

/-- The end-of-input flush: the two `if self.state == ...` checks after the
loop, emitting the trailing buffered token. -/
def flush (st : St) : St :=
  match st.state with
  | Mode.WORD => emit st Kind.WORD
  | Mode.NUMBER => emit st Kind.NUMBER
  | Mode.START => st

/-- The token sequence accumulated in `self.tokens` when the loop and the
flush are done, before the lower-casing pass. -/
def rawTokens (l : List Char) : List Tok := (flush (scanFrom initSt l)).tokens

/-- One step of the final normalization loop: a `WORD` token's text is
lower-cased character-wise (`t.value.lower()`); other tokens pass through. -/
def normTok (t : Tok) : Tok :=
  if t.type = Kind.WORD then ⟨Kind.WORD, t.value.map Char.toLower⟩ else t

/-- `DFATokenizer.tokenize` as a pure function on the input characters:
reset, scan, flush, then normalize. -/
def tokenize (l : List Char) : List Tok := (rawTokens l).map normTok

/-- `DFATokenizer.tokenize` with the instance state made explicit: takes the
instance state before the call, returns the instance state after the call
(`self.tokens` holds the raw, un-normalized tokens) and the returned list. -/
def tokenizeM (inst : St) (l : List Char) : St × List Tok :=
  let st := flush (scanFrom (reset inst) l)
  (st, st.tokens.map normTok)

/-- The `START`-state dispatch of the spec's transition table, as a single
standalone evaluation of one character: whitespace ignored, alphabetic
starts a word run, digit starts a number run, anything else is emitted as a
standalone `SYMBOL`. -/
def startDispatch (st : St) (ch : Char) : St :=
  if ch.isWhitespace then st
  else if ch.isAlpha then { st with state := Mode.WORD, current := st.current ++ [ch] }
  else if ch.isDigit then { st with state := Mode.NUMBER, current := st.current ++ [ch] }
  else { st with tokens := st.tokens ++ [⟨Kind.SYMBOL, [ch]⟩] }

/-- Concatenation of the token texts, in order. -/
def joinTexts (ts : List Tok) : List Char := (ts.map Tok.value).flatten

/-- The buffer/state invariant of the automaton: the buffer is empty
exactly when the automaton is in `START`. -/
def Inv (st : St) : Prop := st.current = [] ↔ st.state = Mode.START

/-- The shape invariant of an emitted token: `WORD`/`NUMBER` text is
non-empty, `SYMBOL` text is a single character. -/
def GoodTok (t : Tok) : Prop :=
  ((t.type = Kind.WORD ∨ t.type = Kind.NUMBER) → t.value ≠ []) ∧
  (t.type = Kind.SYMBOL → t.value.length = 1)

/-! Character-class facts used by the automaton proofs: the whitespace
class is disjoint from the letter class, the digit class and the
apostrophe. -/

theorem ws_not_alpha (c : Char) (h : c.isWhitespace = true) : c.isAlpha = false := by
  simp only [Char.isWhitespace, Bool.or_eq_true, decide_eq_true_eq] at h
  rcases h with ((h | h) | h) | h <;> subst h <;> decide

theorem ws_not_digit (c : Char) (h : c.isWhitespace = true) : c.isDigit = false := by
  simp only [Char.isWhitespace, Bool.or_eq_true, decide_eq_true_eq] at h
  rcases h with ((h | h) | h) | h <;> subst h <;> decide

theorem alpha_not_ws (c : Char) (h : c.isAlpha = true) : c.isWhitespace = false := by
  cases hw : c.isWhitespace with
  | false => rfl
  | true => rw [ws_not_alpha c hw] at h; exact absurd h (by simp)

theorem digit_not_ws (c : Char) (h : c.isDigit = true) : c.isWhitespace = false := by
  cases hw : c.isWhitespace with
  | false => rfl
  | true => rw [ws_not_digit c hw] at h; exact absurd h (by simp)

/-! Basic facts about `emit` and the buffer/state invariant. -/

theorem emit_of_ne (st : St) (k : Kind) (h : st.current ≠ []) :
    emit st k = { st with tokens := st.tokens ++ [⟨k, st.current⟩], current := [] } := by
  unfold emit
  exact if_neg h

theorem emit_state (st : St) (k : Kind) : (emit st k).state = st.state := by
  unfold emit
  split <;> rfl

theorem emit_current (st : St) (k : Kind) : (emit st k).current = [] := by
  unfold emit
  split <;> simp_all

theorem inv_init : Inv initSt := by
  simp [Inv, initSt]

theorem step_inv (st : St) (c : Char) (h : Inv st) : Inv (step st c) := by
  obtain ⟨ms, cur, toks⟩ := st
  cases ms with
  | START =>
    have hcur : cur = [] := by simpa [Inv] using h
    subst hcur
    simp only [step]
    split
    · simp [Inv]
    split
    · simp [Inv]
    split
    · simp [Inv]
    · simp [Inv]
  | WORD =>
    have hcur : cur ≠ [] := by simpa [Inv] using h
    simp only [step]
    split
    · simp [Inv, hcur]
    split
    · simp [Inv, emit, hcur]
    split
    · simp [Inv, emit, hcur]
    · simp [Inv, emit, hcur]
  | NUMBER =>
    have hcur : cur ≠ [] := by simpa [Inv] using h
    simp only [step]
    split
    · simp [Inv, hcur]
    split
    · simp [Inv, emit, hcur]
    split
    · simp [Inv, emit, hcur]
    · simp [Inv, emit, hcur]

theorem scanFrom_inv (l : List Char) : ∀ st : St, Inv st → Inv (scanFrom st l) := by
  induction l with
  | nil => exact fun st h => h
  | cons c l ih => exact fun st h => ih (step st c) (step_inv st c h)

/-! The character-accounting lemma: one step moves the scanned character
into the buffer, into a fresh `SYMBOL` token, or (exactly when it is
whitespace) drops it; tokens already emitted are never altered. -/

theorem step_join (st : St) (c : Char) (h : Inv st) :
    joinTexts (step st c).tokens ++ (step st c).current =
      joinTexts st.tokens ++ st.current ++ (if c.isWhitespace then ([] : List Char) else [c]) := by
  obtain ⟨ms, cur, toks⟩ := st
  cases ms with
  | START =>
    have hcur : cur = [] := by simpa [Inv] using h
    subst hcur
    simp only [step]
    split
    · rename_i hw
      simp [hw]
    rename_i hw
    split
    · simp [joinTexts, hw]
    split
    · simp [joinTexts, hw]
    · simp [joinTexts, hw]
  | WORD =>
    have hcur : cur ≠ [] := by simpa [Inv] using h
    simp only [step]
    split
    · rename_i hc
      have hw : c.isWhitespace = false := by
        rcases Bool.or_eq_true _ _ |>.mp hc with ha | ha
        · exact alpha_not_ws c ha
        · have : c = '\'' := by simpa using ha
          subst this
          decide
      simp [joinTexts, hw]
    split
    · rename_i hw
      simp [joinTexts, emit, hcur, hw]
    rename_i hw
    split
    · simp [joinTexts, emit, hcur, hw]
    · simp [joinTexts, emit, hcur, hw]
  | NUMBER =>
    have hcur : cur ≠ [] := by simpa [Inv] using h
    simp only [step]
    split
    · rename_i hc
      have hw : c.isWhitespace = false := digit_not_ws c hc
      simp [joinTexts, hw]
    split
    · rename_i hw
      simp [joinTexts, emit, hcur, hw]
    rename_i hw
    split
    · simp [joinTexts, emit, hcur, hw]
    · simp [joinTexts, emit, hcur, hw]

theorem scanFrom_join (l : List Char) : ∀ st : St, Inv st →
    joinTexts (flush (scanFrom st l)).tokens =
      joinTexts st.tokens ++ st.current ++ l.filter (fun c => !c.isWhitespace) := by
  induction l with
  | nil =>
    intro st h
    obtain ⟨ms, cur, toks⟩ := st
    cases ms with
    | START =>
      have hcur : cur = [] := by simpa [Inv] using h
      subst hcur
      simp [scanFrom, flush]
    | WORD =>
      have hcur : cur ≠ [] := by simpa [Inv] using h
      simp [scanFrom, flush, emit, hcur, joinTexts]
    | NUMBER =>
      have hcur : cur ≠ [] := by simpa [Inv] using h
      simp [scanFrom, flush, emit, hcur, joinTexts]
  | cons c l ih =>
    intro st h
    have h2 := ih (step st c) (step_inv st c h)
    have hs : scanFrom st (c :: l) = scanFrom (step st c) l := rfl
    rw [hs, h2, step_join st c h]
    cases hw : c.isWhitespace <;> simp [hw, List.filter_cons, List.append_assoc]

/-! The end-of-input flush, analysed per final automaton state. -/

theorem flush_cases (st : St) (h : Inv st) :
    (st.state = Mode.WORD →
      st.current ≠ [] ∧
      (flush st).tokens = st.tokens ++ [⟨Kind.WORD, st.current⟩]) ∧
    (st.state = Mode.NUMBER →
      st.current ≠ [] ∧
      (flush st).tokens = st.tokens ++ [⟨Kind.NUMBER, st.current⟩]) ∧
    (st.state = Mode.START → (flush st).tokens = st.tokens) := by
  obtain ⟨ms, cur, toks⟩ := st
  cases ms with
  | START =>
    refine ⟨fun hs => by simp at hs, fun hs => by simp at hs, fun _ => rfl⟩
  | WORD =>
    have hcur : cur ≠ [] := by simpa [Inv] using h
    refine ⟨fun _ => ⟨hcur, ?_⟩, fun hs => by simp at hs, fun hs => by simp at hs⟩
    simp [flush, emit, hcur]
  | NUMBER =>
    have hcur : cur ≠ [] := by simpa [Inv] using h
    refine ⟨fun hs => by simp at hs, fun _ => ⟨hcur, ?_⟩, fun hs => by simp at hs⟩
    simp [flush, emit, hcur]

/-- A scan over whitespace-only input never leaves the initial state. -/
theorem scanFrom_ws (l : List Char) (h : ∀ c ∈ l, c.isWhitespace = true) :
    scanFrom initSt l = initSt := by
  induction l with
  | nil => rfl
  | cons c l ih =>
    have hc : c.isWhitespace = true := h c (by simp)
    have hstep : step initSt c = initSt := by simp [step, initSt, hc]
    have hs : scanFrom initSt (c :: l) = scanFrom (step initSt c) l := rfl
    rw [hs, hstep]
    exact ih (fun x hx => h x (by simp [hx]))

/-! Preservation of the token-shape invariant through every stage. -/

theorem goodTok_append_symbol (ts : List Tok) (c : Char)
    (h : ∀ t ∈ ts, GoodTok t) :
    ∀ t ∈ ts ++ [⟨Kind.SYMBOL, [c]⟩], GoodTok t := by
  intro t ht
  rcases List.mem_append.mp ht with ht | ht
  · exact h t ht
  · have : t = ⟨Kind.SYMBOL, [c]⟩ := by simpa using ht
    subst this
    exact ⟨by simp, fun _ => rfl⟩

theorem emit_good (st : St) (k : Kind) (hk : k ≠ Kind.SYMBOL)
    (h : ∀ t ∈ st.tokens, GoodTok t) : ∀ t ∈ (emit st k).tokens, GoodTok t := by
  unfold emit
  split
  · exact h
  rename_i hcur
  intro t ht
  rcases List.mem_append.mp ht with ht | ht
  · exact h t ht
  · have : t = ⟨k, st.current⟩ := by simpa using ht
    subst this
    exact ⟨fun _ => hcur, fun hs => absurd hs hk⟩

theorem step_good (st : St) (c : Char)
    (h : ∀ t ∈ st.tokens, GoodTok t) : ∀ t ∈ (step st c).tokens, GoodTok t := by
  obtain ⟨ms, cur, toks⟩ := st
  cases ms with
  | START =>
    simp only [step]
    split
    · exact h
    split
    · exact h
    split
    · exact h
    · exact goodTok_append_symbol toks c h
  | WORD =>
    have hemit := emit_good ⟨Mode.WORD, cur, toks⟩ Kind.WORD (by simp) h
    simp only [step]
    split
    · exact h
    split
    · exact hemit
    split
    · exact hemit
    · exact goodTok_append_symbol _ c hemit
  | NUMBER =>
    have hemit := emit_good ⟨Mode.NUMBER, cur, toks⟩ Kind.NUMBER (by simp) h
    simp only [step]
    split
    · exact h
    split
    · exact hemit
    split
    · exact hemit
    · exact goodTok_append_symbol _ c hemit

theorem scanFrom_good (l : List Char) : ∀ st : St,
    (∀ t ∈ st.tokens, GoodTok t) → ∀ t ∈ (scanFrom st l).tokens, GoodTok t := by
  induction l with
  | nil => exact fun st h => h
  | cons c l ih => exact fun st h => ih (step st c) (step_good st c h)

theorem flush_good (st : St)
    (h : ∀ t ∈ st.tokens, GoodTok t) : ∀ t ∈ (flush st).tokens, GoodTok t := by
  obtain ⟨ms, cur, toks⟩ := st
  cases ms with
  | START => exact h
  | WORD => exact emit_good ⟨Mode.WORD, cur, toks⟩ Kind.WORD (by simp) h
  | NUMBER => exact emit_good ⟨Mode.NUMBER, cur, toks⟩ Kind.NUMBER (by simp) h

theorem normTok_good (t : Tok) (h : GoodTok t) : GoodTok (normTok t) := by
  unfold normTok
  split
  · rename_i hw
    refine ⟨fun _ => ?_, fun hs => by simp at hs⟩
    have : t.value ≠ [] := h.1 (Or.inl hw)
    simpa using this
  · exact h

theorem normTok_value (t : Tok) :
    (normTok t).value =
      if t.type = Kind.WORD then t.value.map Char.toLower else t.value := by
  unfold normTok
  split <;> simp_all

theorem joinTexts_map_normTok (ts : List Tok) :
    joinTexts (ts.map normTok) =
      (ts.map (fun t =>
        if t.type = Kind.WORD then t.value.map Char.toLower else t.value)).flatten := by
  induction ts with
  | nil => rfl
  | cons t ts ih =>
    simp only [List.map_cons, List.flatten_cons, joinTexts] at ih ⊢
    rw [← ih, normTok_value]

/-! The claims. -/

/-- C1: `tokenize` is total (it is a total Lean function over all character
lists), and any input all of whose characters are whitespace — including
the empty input — yields the empty token sequence. -/
theorem tokenize_whitespace_empty (l : List Char)
    (h : ∀ c ∈ l, c.isWhitespace = true) : tokenize l = [] := by
  unfold tokenize rawTokens
  rw [scanFrom_ws l h]
  rfl

theorem tokenize_whitespace_empty_witness :
    (∀ c ∈ (" \t\n ".data), c.isWhitespace = true) ∧ tokenize (" \t\n ".data) = [] :=
  ⟨by decide, tokenize_whitespace_empty (" \t\n ".data) (by decide)⟩

/-- C2: leaving `IN_WORD` on a character that is neither alphabetic nor an
apostrophe, or leaving `IN_NUMBER` on a non-digit, is exactly: emit the
buffered token, return to `START`, and run the `START`-state dispatch once
on that same character; and from `START` a step simply is that one-shot
dispatch, so the re-dispatched character can never trigger a second
exit-and-reprocess within the same step. -/
theorem reprocess_single_start_dispatch (st : St) (ch : Char) :
    (st.state = Mode.WORD → (ch.isAlpha || ch = '\'') = false →
      step st ch = startDispatch { emit st Kind.WORD with state := Mode.START } ch) ∧
    (st.state = Mode.NUMBER → ch.isDigit = false →
      step st ch = startDispatch { emit st Kind.NUMBER with state := Mode.START } ch) ∧
    (st.state = Mode.START → step st ch = startDispatch st ch) := by
  obtain ⟨ms, cur, toks⟩ := st
  refine ⟨?_, ?_, ?_⟩
  · intro hs hc
    cases ms <;> simp_all
    have ha : ch.isAlpha = false := by
      cases hA : ch.isAlpha
      · rfl
      · rw [hA] at hc; simp at hc
    simp [step, startDispatch, hc, ha]
  · intro hs hc
    cases ms <;> simp_all
    simp [step, startDispatch, hc]
  · intro hs
    cases ms <;> simp_all
    simp [step, startDispatch]

theorem reprocess_single_start_dispatch_witness :
    ((('1' : Char).isAlpha || ('1' : Char) = '\'') = false) ∧
    step ⟨Mode.WORD, ['a'], []⟩ '1' =
      startDispatch { emit ⟨Mode.WORD, ['a'], []⟩ Kind.WORD with state := Mode.START } '1' :=
  ⟨by decide, (reprocess_single_start_dispatch ⟨Mode.WORD, ['a'], []⟩ '1').1 rfl (by decide)⟩

/-- C3: every token produced by `tokenize` has non-empty text when its kind
is `WORD` or `NUMBER`, and text of exactly one character when its kind is
`SYMBOL`. -/
theorem tokenize_token_shapes (l : List Char) (t : Tok) (ht : t ∈ tokenize l) :
    ((t.type = Kind.WORD ∨ t.type = Kind.NUMBER) → t.value ≠ []) ∧
    (t.type = Kind.SYMBOL → t.value.length = 1) := by
  have hraw : ∀ u ∈ rawTokens l, GoodTok u := by
    intro u hu
    exact flush_good (scanFrom initSt l)
      (scanFrom_good l initSt (by intro u hu; simp [initSt] at hu)) u hu
  rcases List.mem_map.mp ht with ⟨u, hu, hut⟩
  subst hut
  exact normTok_good u (hraw u hu)

theorem tokenize_token_shapes_witness :
    (⟨Kind.SYMBOL, ['+']⟩ : Tok) ∈ tokenize ("a+12".data) ∧
    (((⟨Kind.SYMBOL, ['+']⟩ : Tok).type = Kind.WORD ∨
        (⟨Kind.SYMBOL, ['+']⟩ : Tok).type = Kind.NUMBER) →
      (⟨Kind.SYMBOL, ['+']⟩ : Tok).value ≠ []) ∧
    ((⟨Kind.SYMBOL, ['+']⟩ : Tok).type = Kind.SYMBOL →
      (⟨Kind.SYMBOL, ['+']⟩ : Tok).value.length = 1) :=
  ⟨by decide, tokenize_token_shapes ("a+12".data) ⟨Kind.SYMBOL, ['+']⟩ (by decide)⟩

/-- C4: if the scan of the input ends in `IN_WORD` or `IN_NUMBER`, the
buffer is non-empty and the final token sequence is the scanned tokens
followed by one flushed `WORD`/`NUMBER` token holding that buffer; if the
scan ends in `START`, nothing further is emitted. -/
theorem end_of_input_flush (l : List Char) :
    ((scanFrom initSt l).state = Mode.WORD →
      (scanFrom initSt l).current ≠ [] ∧
      rawTokens l = (scanFrom initSt l).tokens ++
        [⟨Kind.WORD, (scanFrom initSt l).current⟩]) ∧
    ((scanFrom initSt l).state = Mode.NUMBER →
      (scanFrom initSt l).current ≠ [] ∧
      rawTokens l = (scanFrom initSt l).tokens ++
        [⟨Kind.NUMBER, (scanFrom initSt l).current⟩]) ∧
    ((scanFrom initSt l).state = Mode.START →
      rawTokens l = (scanFrom initSt l).tokens) :=
  flush_cases (scanFrom initSt l) (scanFrom_inv l initSt inv_init)

theorem end_of_input_flush_witness :
    (scanFrom initSt ("end".data)).state = Mode.WORD ∧
    (scanFrom initSt ("end".data)).current ≠ [] ∧
    rawTokens ("end".data) = (scanFrom initSt ("end".data)).tokens ++
      [⟨Kind.WORD, (scanFrom initSt ("end".data)).current⟩] :=
  ⟨by decide, (end_of_input_flush ("end".data)).1 (by decide)⟩

/-- C5: the returned sequence is the automaton-emitted sequence with one
final elementwise pass: same length, each `WORD` token's text lower-cased
(kind preserved), and each non-`WORD` token identical. -/
theorem normalization_final_pass (l : List Char) :
    (tokenize l).length = (rawTokens l).length ∧
    ∀ (i : Nat) (h1 : i < (tokenize l).length) (h2 : i < (rawTokens l).length),
      (((rawTokens l).get ⟨i, h2⟩).type = Kind.WORD →
        (tokenize l).get ⟨i, h1⟩ =
          ⟨Kind.WORD, ((rawTokens l).get ⟨i, h2⟩).value.map Char.toLower⟩) ∧
      (((rawTokens l).get ⟨i, h2⟩).type ≠ Kind.WORD →
        (tokenize l).get ⟨i, h1⟩ = (rawTokens l).get ⟨i, h2⟩) := by
  refine ⟨by simp [tokenize], ?_⟩
  intro i h1 h2
  have hget : (tokenize l).get ⟨i, h1⟩ = normTok ((rawTokens l).get ⟨i, h2⟩) := by
    simp [tokenize]
  rw [hget]
  constructor
  · intro hw
    unfold normTok
    rw [if_pos hw]
  · intro hw
    unfold normTok
    rw [if_neg hw]

theorem normalization_final_pass_witness :
    ((rawTokens ("Ab1".data)).get ⟨0, by decide⟩).type = Kind.WORD ∧
    (tokenize ("Ab1".data)).get ⟨0, by decide⟩ =
      ⟨Kind.WORD, ((rawTokens ("Ab1".data)).get ⟨0, by decide⟩).value.map Char.toLower⟩ :=
  ⟨by decide,
    ((normalization_final_pass ("Ab1".data)).2 0 (by decide) (by decide)).1 (by decide)⟩

/-- C6: an apostrophe seen in `IN_WORD` continues the word run (it is
appended to the buffer), an apostrophe seen in `START` is emitted as a
standalone `SYMBOL`, and tokenizing the string of characters of
"don't stop" yields exactly the two word tokens of the scenario. -/
theorem apostrophe_word_continuation :
    (∀ st : St, st.state = Mode.WORD →
      step st '\'' = { st with current := st.current ++ ['\''] }) ∧
    (∀ st : St, st.state = Mode.START →
      step st '\'' = { st with tokens := st.tokens ++ [⟨Kind.SYMBOL, ['\'']⟩] }) ∧
    tokenize ("don't stop".data) =
      [⟨Kind.WORD, "don't".data⟩, ⟨Kind.WORD, "stop".data⟩] := by
  refine ⟨?_, ?_, by decide⟩
  · rintro ⟨ms, cur, toks⟩ hs
    cases ms <;> simp_all
    simp [step]
  · rintro ⟨ms, cur, toks⟩ hs
    cases ms <;> simp_all
    simp [step, show ('\'' : Char).isWhitespace = false from by decide,
      show ('\'' : Char).isAlpha = false from by decide,
      show ('\'' : Char).isDigit = false from by decide]

theorem apostrophe_word_continuation_witness :
    step ⟨Mode.WORD, ['d'], []⟩ '\'' = ⟨Mode.WORD, ['d', '\''], []⟩ ∧
    step ⟨Mode.START, [], []⟩ '\'' = ⟨Mode.START, [], [⟨Kind.SYMBOL, ['\'']⟩]⟩ :=
  ⟨apostrophe_word_continuation.1 ⟨Mode.WORD, ['d'], []⟩ rfl,
   apostrophe_word_continuation.2.1 ⟨Mode.START, [], []⟩ rfl⟩

/-- C7: the scenario equation for "x1 + x2 = 10". -/
theorem tokenize_equation_scenario :
    tokenize ("x1 + x2 = 10".data) =
      [⟨Kind.WORD, ['x']⟩, ⟨Kind.NUMBER, ['1']⟩, ⟨Kind.SYMBOL, ['+']⟩,
       ⟨Kind.WORD, ['x']⟩, ⟨Kind.NUMBER, ['2']⟩, ⟨Kind.SYMBOL, ['=']⟩,
       ⟨Kind.NUMBER, ['1', '0']⟩] := by
  decide

/-- C8: with the instance state made explicit, the output of a `tokenize`
call is independent of whatever state earlier calls left behind (the call
begins with `reset`), so a repeated call on the same instance returns
exactly what a call on a fresh instance returns, namely the pure
`tokenize` function of the input alone. -/
theorem tokenize_no_state_leak (inst inst2 : St) (prev l : List Char) :
    (tokenizeM ((tokenizeM inst prev).1) l).2 = (tokenizeM inst2 l).2 ∧
    (tokenizeM inst l).2 = tokenize l :=
  ⟨rfl, rfl⟩

/-- C9: tokenization is not round-trip preserving: for the characters of
"A B", re-tokenizing the concatenation of the returned token texts does not
reproduce the original token sequence (whitespace and case are discarded). -/
theorem tokenize_not_roundtrip :
    ∃ l : List Char, tokenize (joinTexts (tokenize l)) ≠ tokenize l :=
  ⟨"A B".data, by decide⟩

/-- C10: character accounting: the texts of the automaton-emitted tokens
concatenate to exactly the non-whitespace characters of the input in
order, and the returned sequence's texts are those same texts with
precisely the `WORD` tokens' characters lower-cased. -/
theorem tokenize_char_accounting (l : List Char) :
    joinTexts (rawTokens l) = l.filter (fun c => !c.isWhitespace) ∧
    joinTexts (tokenize l) =
      ((rawTokens l).map (fun t =>
        if t.type = Kind.WORD then t.value.map Char.toLower else t.value)).flatten := by
  constructor
  · have h := scanFrom_join l initSt inv_init
    simpa [initSt, joinTexts, rawTokens] using h
  · exact joinTexts_map_normTok (rawTokens l)

end TokPar
